import Mathlib

/-!
Verification of the sntools event-generation engine.

Shallow embedding of the two source files:
* channel.py — the generation pipeline: the flux cache (ddEventRate),
  the generic rejection sampler, time binning with Poisson counts, and
  the per-event energy/direction sampling (gen_evts and helpers).
  Machine floats are modelled as exact ordered-field arithmetic; the
  generic numeric helpers are stated over an arbitrary linear ordered
  field so that they can be instantiated both at ℝ (the pipeline) and
  at ℚ (for concrete evaluation).  Python random draws are modelled as
  a deterministic stream ℕ → α produced by seeding, and the unbounded
  accept/reject loop carries explicit fuel, with `none` standing for
  not yet having terminated within the fuel.
* ibd_.py — the reference inverse-beta-decay physics model: kinematic
  bounds for the outgoing-lepton energy and the angular distribution.
-/

namespace SnTools

/-- Python `int()` applied to a (real-valued) quantity: truncation toward
zero, as in channel.py line 43. -/
def pythonInt {α : Type} [LinearOrderedField α] [FloorRing α] (q : α) : ℤ :=
  if 0 ≤ q then ⌊q⌋ else ⌈q⌉

/-- channel.py line 43:
`n_bins = int((flux.endtime - flux.starttime) / bin_width)`. -/
def nBins {α : Type} [LinearOrderedField α] [FloorRing α]
    (starttime endtime bin_width : α) : ℤ :=
  pythonInt ((endtime - starttime) / bin_width)

/-- channel.py lines 52-54: negative entries of the interpolated per-bin
rate are overwritten with 0 (silently; there is no error path). -/
def clampNeg {α : Type} [LinearOrderedField α] (l : List α) : List α :=
  l.map (fun n => if n < 0 then 0 else n)

/-- The per-bin Poisson means of channel.py lines 50-55: the interpolated
rate curve evaluated at each bin midpoint, negatives clamped to 0. -/
def binnedMeans {α : Type} [LinearOrderedField α]
    (event_rate : α → α) (binned_t : List α) : List α :=
  clampNeg (binned_t.map event_rate)

/-- The flux cache of channel.py line 33: a finite association of
`(eNu, time)` keys to flux values, with exact key equality. -/
abbrev CacheT (α : Type) : Type := List ((α × α) × α)

/-- Dictionary lookup on the flux cache. -/
def cacheLookup {α : Type} [DecidableEq α] : CacheT α → α × α → Option α
  | [], _ => none
  | (k, v) :: rest, key => if k = key then some v else cacheLookup rest key

/-- channel.py lines 93-97, `ddEventRate(eE, eNu, time)`:
if `(eNu, time)` is not cached, invoke the flux (`nu_emission`) and store
the result; return `dSigma_dE(eNu, eE) * cached_flux[(eNu, time)]`.
The returned triple is (value, cache after the call, whether the flux
function was invoked by this call). -/
def ddEventRate {α : Type} [DecidableEq α] [Mul α]
    (dSigma_dE nu_emission : α → α → α) (cached_flux : CacheT α)
    (eE eNu time : α) : α × CacheT α × Bool :=
  match cacheLookup cached_flux (eNu, time) with
  | some v => (dSigma_dE eNu eE * v, cached_flux, false)
  | none =>
    let v := nu_emission eNu time
    (dSigma_dE eNu eE * v, ((eNu, time), v) :: cached_flux, true)

/-- Every value stored in the cache is the flux value of its key; this is
the invariant of all cache states the program can reach, since the cache
starts empty (channel.py line 33) and is written only by `ddEventRate`. -/
def CacheWF {α : Type} [DecidableEq α]
    (nu_emission : α → α → α) (c : CacheT α) : Prop :=
  ∀ p v, cacheLookup c p = some v → v = nu_emission p.1 p.2

/-- channel.py lines 110 and 117: `val = min_val + bin_width * (j + 0.5)`. -/
def binCenter {α : Type} [LinearOrderedField α]
    (min_val bin_width : α) (j : ℕ) : α :=
  min_val + bin_width * ((j : α) + 1 / 2)

/-- Indices probed by the coarse pass of `rejection_sample`, line 109:
`range(0, n_bins, 10)`. -/
def coarseIdx (n_bins : ℕ) : List ℕ :=
  (List.range n_bins).filter (fun j => j % 10 = 0)

/-- Indices probed by the refinement pass, line 116:
`range(max(j_max - 9, 0), min(j_max + 10, n_bins))`
(truncated ℕ subtraction realizes both clamps). -/
def fineIdx (j_max n_bins : ℕ) : List ℕ :=
  List.range' (j_max - 9) (min (j_max + 10) n_bins - (j_max - 9))

/-- The coarse maximum scan of lines 109-114, tracking `(p_max, j_max)`
starting from `(0, 0)`; an update happens only when `p > p_max`. -/
def coarseScan {α : Type} [LinearOrderedField α]
    (dist : α → α) (min_val bin_width : α) : List ℕ → α × ℕ → α × ℕ
  | [], acc => acc
  | j :: js, acc =>
    let p := dist (binCenter min_val bin_width j)
    coarseScan dist min_val bin_width js (if acc.1 < p then (p, j) else acc)

/-- The refinement scan of lines 116-120, updating `p_max` only. -/
def fineScan {α : Type} [LinearOrderedField α]
    (dist : α → α) (min_val bin_width : α) : List ℕ → α → α
  | [], p_max => p_max
  | j :: js, p_max =>
    let p := dist (binCenter min_val bin_width j)
    fineScan dist min_val bin_width js (if p_max < p then p else p_max)

/-- The bound `p_max` as it stands after the two probing passes of
`rejection_sample` (lines 102-120), before the accept/reject loop. -/
def pMaxOf {α : Type} [LinearOrderedField α]
    (dist : α → α) (min_val max_val : α) (n_bins : ℕ) : α :=
  let bin_width := (max_val - min_val) / (n_bins : α)
  let c := coarseScan dist min_val bin_width (coarseIdx n_bins) (0, 0)
  fineScan dist min_val bin_width (fineIdx c.2 n_bins) c.1

/-- All indices probed by the two passes (coarse pass, then the refinement
window around the coarse maximizing index). -/
def probedIdx {α : Type} [LinearOrderedField α]
    (dist : α → α) (min_val max_val : α) (n_bins : ℕ) : List ℕ :=
  let bin_width := (max_val - min_val) / (n_bins : α)
  let c := coarseScan dist min_val bin_width (coarseIdx n_bins) (0, 0)
  coarseIdx n_bins ++ fineIdx c.2 n_bins

/-- The accept/reject loop of lines 122-127: draw
`val = min_val + (max_val - min_val) * random()` and accept once
`p_max * random() < dist(val)`.  Draws come from `stream` starting at
position `pos`; the source loops without bound, so the loop carries fuel
and `none` models not having terminated within it.  On success the
result carries the accepted value and the next unused stream position. -/
def sampleLoop {α : Type} [LinearOrderedField α]
    (dist : α → α) (min_val max_val p_max : α) (stream : ℕ → α) :
    ℕ → ℕ → Option (α × ℕ)
  | _, 0 => none
  | pos, fuel + 1 =>
    let val := min_val + (max_val - min_val) * stream pos
    if p_max * stream (pos + 1) < dist val then some (val, pos + 2)
    else sampleLoop dist min_val max_val p_max stream (pos + 2) fuel

/-- channel.py lines 100-127, `rejection_sample(dist, min_val, max_val,
n_bins)`: estimate `p_max` by the two probing passes, then run the
accept/reject loop.  There is no validation of the bounds or of the sign
of `dist`, and no error path. -/
def rejection_sample {α : Type} [LinearOrderedField α]
    (dist : α → α) (min_val max_val : α) (n_bins : ℕ)
    (stream : ℕ → α) (pos fuel : ℕ) : Option (α × ℕ) :=
  sampleLoop dist min_val max_val (pMaxOf dist min_val max_val n_bins)
    stream pos fuel

/-- channel.py line 42: `bin_width = 1  # in ms`. -/
noncomputable def bin_width : ℝ := 1

/-- A per-channel physics model (BaseChannel instance), over an abstract
event-record type `E` produced by `generate_event`. -/
structure Channel (E : Type) where
  bounds_eE : ℝ → ℝ × ℝ
  bounds_eNu : ℝ × ℝ
  dSigma_dE : ℝ → ℝ → ℝ
  dSigma_dCosT : ℝ → ℝ → ℝ
  generate_event : ℝ → ℝ → ℝ → ℝ → E

/-- A flux model (BaseFlux instance). -/
structure Flux where
  raw_times : List ℝ
  starttime : ℝ
  endtime : ℝ
  nu_emission : ℝ → ℝ → ℝ

/-- An event record handed back to the caller: the channel-specific
record plus the absolute interaction time assigned on line 78. -/
structure Event (E : Type) where
  record : E
  time : ℝ

/-- The external collaborators of channel.py, all deterministic
functions: the scipy quadrature routines, the pchip interpolator, and
the seed-to-stream maps of the two PRNGs (`random` and `numpy.random`;
`seedNumpy seed i mean` is the i-th Poisson count drawn at `mean`). -/
structure Externals where
  nquad : (ℝ → ℝ → ℝ) → (ℝ → ℝ × ℝ) → (ℝ × ℝ) → ℝ
  quad : (ℝ → ℝ) → ℝ × ℝ → ℝ
  pchip : List ℝ → List ℝ → ℝ → ℝ
  seedRandom : ℤ → ℕ → ℝ
  seedNumpy : ℤ → ℕ → ℝ → ℕ

/-- The module-level mutable state of channel.py as it stands when
`gen_evts` is entered: the states of the two PRNGs (a stream and the
position of the next draw) and the `cached_flux` dictionary left over
from earlier activity in the process. -/
structure GlobalState where
  randStream : ℕ → ℝ
  randPos : ℕ
  npStream : ℕ → ℝ → ℕ
  npPos : ℕ
  cache : CacheT ℝ

/-- channel.py lines 130-136, `get_eNu(time)`: rejection-sample the
incoming energy against the outgoing-energy integral of `ddEventRate`
over the channel's `bounds_eE`, with `n_bins=200`. -/
noncomputable def get_eNu {E : Type} (ext : Externals) (channel : Channel E)
    (flux : Flux) (cached_flux : CacheT ℝ) (time : ℝ)
    (stream : ℕ → ℝ) (pos fuel : ℕ) : Option (ℝ × ℕ) :=
  let dist := fun eNu => ext.quad
    (fun eE => (ddEventRate channel.dSigma_dE flux.nu_emission cached_flux
      eE eNu time).1)
    (channel.bounds_eE eNu)
  rejection_sample dist channel.bounds_eNu.1 channel.bounds_eNu.2 200
    stream pos fuel

/-- channel.py line 147: the outgoing direction vector
`(sinT*cos(phi), sinT*sin(phi), cosT)` with `sinT = sin(acos(cosT))`. -/
noncomputable def directionVector (cosT phi : ℝ) : ℝ × ℝ × ℝ :=
  let sinT := Real.sin (Real.arccos cosT)
  (sinT * Real.cos phi, sinT * Real.sin phi, cosT)

/-- channel.py lines 139-147, `get_direction(eNu)`: rejection-sample
`cosT` against the channel's angular distribution over `[-1, 1]` with
`n_bins=200`, draw `phi` uniformly in `[0, 2π)` from the next stream
position, and form the direction vector. -/
noncomputable def get_direction {E : Type} (channel : Channel E) (eNu : ℝ)
    (stream : ℕ → ℝ) (pos fuel : ℕ) : Option ((ℝ × ℝ × ℝ) × ℕ) :=
  let dist := fun cosT => channel.dSigma_dCosT eNu cosT
  match rejection_sample dist (-1) 1 200 stream pos fuel with
  | none => none
  | some (cosT, pos1) =>
    some (directionVector cosT (2 * Real.pi * stream pos1), pos1 + 1)

/-- channel.py lines 74-79: generate the `k` events of one time bin, in
order; each event draws its energy, its direction, and then a uniform
sub-bin time offset from the next stream position. -/
noncomputable def genEvtsInBin {E : Type} (ext : Externals)
    (channel : Channel E) (flux : Flux) (cached_flux : CacheT ℝ)
    (stream : ℕ → ℝ) (fuel : ℕ) (tmid t0 : ℝ) :
    ℕ → ℕ → Option (List (Event E) × ℕ)
  | 0, pos => some ([], pos)
  | k + 1, pos =>
    match get_eNu ext channel flux cached_flux tmid stream pos fuel with
    | none => none
    | some (eNu, pos1) =>
      match get_direction channel eNu stream pos1 fuel with
      | none => none
      | some (dir, pos2) =>
        let evt : Event E :=
          ⟨channel.generate_event eNu dir.1 dir.2.1 dir.2.2,
            t0 + stream pos2 * bin_width⟩
        match genEvtsInBin ext channel flux cached_flux stream fuel tmid t0
            k (pos2 + 1) with
        | none => none
        | some (evts, pos3) => some (evt :: evts, pos3)

/-- channel.py lines 66-79: the outer loop over bins; each list entry is
a bin index paired with its realized Poisson count. -/
noncomputable def genAllBins {E : Type} (ext : Externals)
    (channel : Channel E) (flux : Flux) (cached_flux : CacheT ℝ)
    (stream : ℕ → ℝ) (fuel : ℕ) :
    List (ℕ × ℕ) → ℕ → Option (List (Event E) × ℕ)
  | [], pos => some ([], pos)
  | (i, k) :: rest, pos =>
    let t0 := flux.starttime + (i : ℝ) * bin_width
    let tmid := flux.starttime + ((i : ℝ) + 1 / 2) * bin_width
    match genEvtsInBin ext channel flux cached_flux stream fuel tmid t0
        k pos with
    | none => none
    | some (evts, pos1) =>
      match genAllBins ext channel flux cached_flux stream fuel rest pos1 with
      | none => none
      | some (evts2, pos2) => some (evts ++ evts2, pos2)

/-- channel.py lines 9-89, `gen_evts(_channel, _flux, scale, seed,
verbose)` with the print-only (`verbose`) statements dropped:
re-seed both PRNGs (lines 22-23, discarding the prior module state `_g`),
reset the flux cache (line 33), build the interpolated rate curve from the
per-raw-time double integrals (lines 38-40), cut the window into full
1 ms bins (line 43), clamp the interpolated per-bin means and draw the
Poisson counts (lines 49-55), then generate the events bin by bin.
`none` models a rejection-sampling loop that did not terminate within
the fuel. -/
noncomputable def gen_evts {E : Type} (ext : Externals)
    (_channel : Channel E) (_flux : Flux) (scale : ℝ) (seed : ℤ)
    (fuel : ℕ) (_g : GlobalState) : Option (List (Event E)) :=
  let randStream := ext.seedRandom seed
  let npStream := ext.seedNumpy seed
  let cached_flux : CacheT ℝ := []
  let raw_nevts := _flux.raw_times.map (fun t =>
    scale * ext.nquad
      (fun eE eNu =>
        (ddEventRate _channel.dSigma_dE _flux.nu_emission cached_flux
          eE eNu t).1)
      _channel.bounds_eE _channel.bounds_eNu)
  let event_rate := ext.pchip _flux.raw_times raw_nevts
  let n_bins := (nBins _flux.starttime _flux.endtime bin_width).toNat
  let binned_t := (List.range n_bins).map
    (fun i => _flux.starttime + ((i : ℝ) + 1 / 2) * bin_width)
  let binned_nevt_th := binnedMeans event_rate binned_t
  let binned_nevt := binned_nevt_th.enum.map (fun p => npStream p.1 p.2)
  match genAllBins ext _channel _flux cached_flux randStream fuel
      binned_nevt.enum 0 with
  | none => none
  | some (evts, _) => some evts

end SnTools

namespace IBD

/-! The reference inverse-beta-decay physics model, ibd_.py, based on
Strumia/Vissani (2003).  Only the parts the verified claims are about
are embedded: the kinematic bounds for the outgoing-lepton energy and
the angular distribution. -/

/-- Neutron mass (MeV). -/
noncomputable def mN : ℝ := 939.5654

/-- Proton mass (MeV). -/
noncomputable def mP : ℝ := 938.2721

/-- Electron mass (MeV). -/
noncomputable def mE : ℝ := 0.5109989

/-- Mandelstam `s(eNu) = 2*mP*eNu + mP**2`. -/
noncomputable def s (eNu : ℝ) : ℝ := 2 * mP * eNu + mP ^ 2

/-- Center-of-mass momentum of the outgoing lepton. -/
noncomputable def pE_cm (eNu : ℝ) : ℝ :=
  Real.sqrt ((s eNu - (mN - mE) ^ 2) * (s eNu - (mN + mE) ^ 2)) /
    (2 * Real.sqrt (s eNu))

/-- Center-of-mass energy of the outgoing lepton. -/
noncomputable def eE_cm (eNu : ℝ) : ℝ :=
  (s eNu - mN ^ 2 + mE ^ 2) / (2 * Real.sqrt (s eNu))

/-- `delta_cm = (mN**2 - mP**2 - mE**2) / (2*mP)`. -/
noncomputable def delta_cm : ℝ := (mN ^ 2 - mP ^ 2 - mE ^ 2) / (2 * mP)

/-- Lower end of the lab-frame outgoing-energy range. -/
noncomputable def eE_min (eNu : ℝ) : ℝ :=
  eNu - delta_cm - eNu / Real.sqrt (s eNu) * (eE_cm eNu + pE_cm eNu)

/-- Upper end of the lab-frame outgoing-energy range. -/
noncomputable def eE_max (eNu : ℝ) : ℝ :=
  eNu - delta_cm - eNu / Real.sqrt (s eNu) * (eE_cm eNu - pE_cm eNu)

/-- ibd_.py lines 113-114, `bounds_eE(eNu)`:
`[eE_min(eNu)+1, eE_max(eNu)+1]`. -/
noncomputable def bounds_eE (eNu : ℝ) : ℝ × ℝ :=
  (eE_min eNu + 1, eE_max eNu + 1)

/-- Threshold energy for inverse beta decay,
`eThr = ((mN+mE)**2 - mP**2) / (2*mP)`. -/
noncomputable def eThr : ℝ := ((mN + mE) ^ 2 - mP ^ 2) / (2 * mP)

/-- ibd_.py line 118: `bounds_eNu = [eThr, 100]`. -/
noncomputable def bounds_eNu : ℝ × ℝ := (eThr, 100)

/-- ibd_.py lines 87-90, `dir_nuebar_p_sv(eNu, cosT)`: the angular
distribution, a quadratic in `cosT` with energy-dependent coefficients. -/
noncomputable def dir_nuebar_p_sv (eNu cosT : ℝ) : ℝ :=
  let c1 := -0.05396 + 0.35824 * (eNu / 100) + 0.03309 * (eNu / 100) ^ 2
  let c2 := 0.00050 - 0.02390 * (eNu / 100) + 0.14537 * (eNu / 100) ^ 2
  0.5 + c1 * cosT + c2 * (cosT ^ 2 - 1 / 3)

end IBD

namespace SnTools

/-- C1 counterexample: with starttime 0, endtime 1000 and bin_width 1,
the bin count computed on channel.py line 43 is not 999. -/
theorem nBins_window_ne_999 : nBins (0 : ℚ) 1000 1 ≠ 999 := by
  unfold nBins pythonInt
  rw [if_pos (by norm_num)]
  norm_num

/-- C1 (amended): the number of full bins is
`floor((endtime - starttime) / bin_width)` whenever that quotient is
nonnegative (Python `int()` truncates toward zero, which is floor on
nonnegative values), and for the window `[0, 1000)` ms with 1 ms bins
this is exactly 1000 full bins, not 999: the window divides evenly, so
no partial bin exists to be dropped. -/
theorem nBins_floor_count :
    (∀ starttime endtime bw : ℚ, 0 ≤ (endtime - starttime) / bw →
      nBins starttime endtime bw = ⌊(endtime - starttime) / bw⌋) ∧
    nBins (0 : ℚ) 1000 1 = 1000 := by
  constructor
  · intro st en bw h
    unfold nBins pythonInt
    rw [if_pos h]
  · unfold nBins pythonInt
    rw [if_pos (by norm_num)]
    norm_num

/-- Witness for `nBins_floor_count` at the concrete window of the claim. -/
theorem nBins_floor_count_witness :
    0 ≤ ((1000 : ℚ) - 0) / 1 ∧
    nBins (0 : ℚ) 1000 1 = ⌊((1000 : ℚ) - 0) / 1⌋ :=
  ⟨by norm_num, nBins_floor_count.1 0 1000 1 (by norm_num)⟩

/-- C5: the mean handed to each bin's Poisson draw is exactly
`max(0, event_rate(bin midpoint))`; the clamp of channel.py lines 52-54
is a total, silent rewrite of the list — there is no error path. -/
theorem binnedMeans_clamped {α : Type} [LinearOrderedField α]
    (event_rate : α → α) (binned_t : List α) :
    binnedMeans event_rate binned_t =
      binned_t.map (fun t => max 0 (event_rate t)) := by
  unfold binnedMeans clampNeg
  rw [List.map_map]
  congr 1
  funext t
  by_cases h : event_rate t < 0
  · simp only [Function.comp_apply, if_pos h]
    exact (max_eq_left h.le).symm
  · push_neg at h
    simp only [Function.comp_apply, if_neg (not_lt.2 h)]
    exact (max_eq_right h).symm

/-- C6: correctness of the `cached_flux` memoization in `ddEventRate`.
On every cache state satisfying the reachability invariant `CacheWF`
(each stored value is the flux value of its key — this holds for the
empty cache the run starts from and is preserved by every call), the
returned value equals `dSigma_dE(eNu, eE) * nu_emission(eNu, time)`;
a miss invokes the flux and stores its value under the key; a hit does
not invoke the flux, leaves the cache unchanged and returns the stored
value. -/
theorem ddEventRate_cached {α : Type} [DecidableEq α] [Mul α]
    (dSig em : α → α → α) (c : CacheT α) (eE eNu time : α) :
    (CacheWF em c →
      (ddEventRate dSig em c eE eNu time).1 = dSig eNu eE * em eNu time) ∧
    (CacheWF em c → CacheWF em (ddEventRate dSig em c eE eNu time).2.1) ∧
    (cacheLookup c (eNu, time) = none →
      (ddEventRate dSig em c eE eNu time).2.2 = true ∧
      cacheLookup (ddEventRate dSig em c eE eNu time).2.1 (eNu, time) =
        some (em eNu time)) ∧
    (∀ v, cacheLookup c (eNu, time) = some v →
      (ddEventRate dSig em c eE eNu time).2.2 = false ∧
      (ddEventRate dSig em c eE eNu time).2.1 = c ∧
      (ddEventRate dSig em c eE eNu time).1 = dSig eNu eE * v) ∧
    CacheWF em ([] : CacheT α) := by
  refine ⟨?_, ?_, ?_, ?_, ?_⟩
  · intro hwf
    cases h : cacheLookup c (eNu, time) with
    | none => simp only [ddEventRate, h]
    | some v =>
      have hv := hwf (eNu, time) v h
      simp only [ddEventRate, h, hv]
  · intro hwf
    cases h : cacheLookup c (eNu, time) with
    | none =>
      simp only [ddEventRate, h]
      intro p v hv
      simp only [cacheLookup] at hv
      by_cases hp : (eNu, time) = p
      · rw [if_pos hp] at hv
        rw [← hp]
        exact (Option.some_injective _ hv).symm
      · rw [if_neg hp] at hv
        exact hwf p v hv
    | some v => simpa only [ddEventRate, h] using hwf
  · intro h
    simp [ddEventRate, h, cacheLookup]
  · intro v h
    simp [ddEventRate, h]
  · intro p v hv
    simp only [cacheLookup] at hv
    exact Option.noConfusion hv

/-- Witness for `ddEventRate_cached`: evaluate the cached/uncached
agreement on the empty cache at concrete rational inputs. -/
theorem ddEventRate_cached_witness :
    CacheWF (fun x y : ℚ => x + y) ([] : CacheT ℚ) ∧
    (ddEventRate (fun x y : ℚ => x * y) (fun x y : ℚ => x + y)
      [] 2 3 4).1 = (fun x y : ℚ => x * y) 3 2 * (fun x y : ℚ => x + y) 3 4 := by
  have hwf : CacheWF (fun x y : ℚ => x + y) ([] : CacheT ℚ) := by
    intro p v hv
    simp only [cacheLookup] at hv
    exact Option.noConfusion hv
  exact ⟨hwf, (ddEventRate_cached (fun x y : ℚ => x * y)
    (fun x y : ℚ => x + y) [] 2 3 4).1 hwf⟩

/-- C4: the generation pipeline is reproducible for a fixed seed.
Because `gen_evts` re-seeds both PRNGs from `seed` (channel.py lines
22-23) and resets the flux cache (line 33) before doing anything else,
its result is independent of the module-level state left by any earlier
activity: two runs with identical inputs and seed, started from
arbitrary prior global states, return identical event sequences (same
events, same order, same times, energies and directions). -/
theorem gen_evts_reproducible {E : Type} (ext : Externals)
    (channel : Channel E) (flux : Flux) (scale : ℝ) (seed : ℤ)
    (fuel : ℕ) (g1 g2 : GlobalState) :
    gen_evts ext channel flux scale seed fuel g1 =
      gen_evts ext channel flux scale seed fuel g2 := rfl

/-- Monotonicity of the accept/reject loop bound: whatever the loop
returns was built as `min_val + (max_val - min_val) * r` from a single
stream draw `r`. -/
theorem sampleLoop_mem {α : Type} [LinearOrderedField α]
    (dist : α → α) (min_val max_val p_max : α) (stream : ℕ → α)
    (hs : ∀ n, 0 ≤ stream n ∧ stream n < 1) (hle : min_val ≤ max_val) :
    ∀ (fuel pos : ℕ) (v : α) (next : ℕ),
      sampleLoop dist min_val max_val p_max stream pos fuel =
        some (v, next) → min_val ≤ v ∧ v ≤ max_val := by
  intro fuel
  induction fuel with
  | zero =>
    intro pos v next h
    simp only [sampleLoop] at h
    exact Option.noConfusion h
  | succ n ih =>
    intro pos v next h
    simp only [sampleLoop] at h
    split at h
    · have hv : min_val + (max_val - min_val) * stream pos = v :=
        congrArg Prod.fst (Option.some_injective _ h)
      have h0 := (hs pos).1
      have h1 := (hs pos).2
      have hd : (0 : α) ≤ max_val - min_val := sub_nonneg.2 hle
      constructor
      · nlinarith
      · nlinarith
    · exact ih (pos + 2) v next h

/-- C3: whenever the accept/reject loop of `rejection_sample` terminates
with `min_val ≤ max_val` and draws coming from a stream of uniform
`[0, 1)` values, the accepted value lies in `[min_val, max_val]`. -/
theorem rejection_sample_in_bounds {α : Type} [LinearOrderedField α]
    (dist : α → α) (min_val max_val : α) (n_bins : ℕ) (stream : ℕ → α)
    (pos fuel : ℕ) (v : α) (next : ℕ)
    (hs : ∀ n, 0 ≤ stream n ∧ stream n < 1) (hle : min_val ≤ max_val)
    (h : rejection_sample dist min_val max_val n_bins stream pos fuel =
      some (v, next)) :
    min_val ≤ v ∧ v ≤ max_val :=
  sampleLoop_mem dist min_val max_val _ stream hs hle fuel pos v next h

/-- Witness for `rejection_sample_in_bounds`: a concrete terminating run
over ℚ with a constant density on `[0, 1]` accepts the value 1/2. -/
theorem rejection_sample_in_bounds_witness :
    (∀ n : ℕ, 0 ≤ (fun _ : ℕ => (1 : ℚ) / 2) n ∧
      (fun _ : ℕ => (1 : ℚ) / 2) n < 1) ∧
    (0 : ℚ) ≤ 1 ∧
    rejection_sample (fun _ => (1 : ℚ)) 0 1 1 (fun _ => 1 / 2) 0 1 =
      some (1 / 2, 2) ∧
    ((0 : ℚ) ≤ 1 / 2 ∧ (1 : ℚ) / 2 ≤ 1) := by
  have hs : ∀ n : ℕ, 0 ≤ (fun _ : ℕ => (1 : ℚ) / 2) n ∧
      (fun _ : ℕ => (1 : ℚ) / 2) n < 1 := fun _ => ⟨by norm_num, by norm_num⟩
  have hc1 : coarseIdx 1 = [0] := by decide
  have hf1 : fineIdx 0 1 = [0] := by decide
  have heval : rejection_sample (fun _ => (1 : ℚ)) 0 1 1 (fun _ => 1 / 2) 0 1 =
      some (1 / 2, 2) := by
    have hpm : pMaxOf (fun _ => (1 : ℚ)) 0 1 1 = 1 := by
      simp only [pMaxOf, hc1, hf1, coarseScan, fineScan, binCenter]
      norm_num
    simp only [rejection_sample, hpm, sampleLoop]
    norm_num
  exact ⟨hs, by norm_num, heval,
    rejection_sample_in_bounds (fun _ => (1 : ℚ)) 0 1 1 (fun _ => 1 / 2)
      0 1 (1 / 2) 2 hs (by norm_num) heval⟩

/-- The running maximum of the coarse pass never decreases. -/
theorem coarseScan_le_fst {α : Type} [LinearOrderedField α]
    (dist : α → α) (min_val bw : α) :
    ∀ (js : List ℕ) (acc : α × ℕ),
      acc.1 ≤ (coarseScan dist min_val bw js acc).1 := by
  intro js
  induction js with
  | nil => intro acc; exact le_refl _
  | cons j t ih =>
    intro acc
    simp only [coarseScan]
    refine le_trans ?_ (ih _)
    split
    · next hlt => exact le_of_lt hlt
    · exact le_refl _

/-- Every value probed by the coarse pass is dominated by its result. -/
theorem coarseScan_probe_le {α : Type} [LinearOrderedField α]
    (dist : α → α) (min_val bw : α) :
    ∀ (js : List ℕ) (acc : α × ℕ), ∀ j ∈ js,
      dist (binCenter min_val bw j) ≤ (coarseScan dist min_val bw js acc).1 := by
  intro js
  induction js with
  | nil => intro acc j hj; exact absurd hj (List.not_mem_nil j)
  | cons a t ih =>
    intro acc j hj
    rcases List.mem_cons.1 hj with hja | hjt
    · subst hja
      simp only [coarseScan]
      refine le_trans ?_ (coarseScan_le_fst dist min_val bw t _)
      split
      · exact le_refl _
      · next hnot => exact le_of_not_lt hnot
    · simp only [coarseScan]
      exact ih _ j hjt

/-- The coarse-pass result is the initial accumulator or one of the
probed values. -/
theorem coarseScan_fst_origin {α : Type} [LinearOrderedField α]
    (dist : α → α) (min_val bw : α) :
    ∀ (js : List ℕ) (acc : α × ℕ),
      (coarseScan dist min_val bw js acc).1 = acc.1 ∨
      ∃ j ∈ js, (coarseScan dist min_val bw js acc).1 =
        dist (binCenter min_val bw j) := by
  intro js
  induction js with
  | nil => intro acc; exact Or.inl rfl
  | cons a t ih =>
    intro acc
    simp only [coarseScan]
    rcases ih (if acc.1 < dist (binCenter min_val bw a)
        then (dist (binCenter min_val bw a), a) else acc) with h | ⟨j, hj, hval⟩
    · rw [h]
      split
      · exact Or.inr ⟨a, List.mem_cons_self a t, rfl⟩
      · exact Or.inl rfl
    · exact Or.inr ⟨j, List.mem_cons_of_mem a hj, hval⟩

/-- The running maximum of the refinement pass never decreases. -/
theorem fineScan_le {α : Type} [LinearOrderedField α]
    (dist : α → α) (min_val bw : α) :
    ∀ (js : List ℕ) (p : α), p ≤ fineScan dist min_val bw js p := by
  intro js
  induction js with
  | nil => intro p; exact le_refl _
  | cons j t ih =>
    intro p
    simp only [fineScan]
    refine le_trans ?_ (ih _)
    split
    · next hlt => exact le_of_lt hlt
    · exact le_refl _

/-- Every value probed by the refinement pass is dominated by its
result. -/
theorem fineScan_probe_le {α : Type} [LinearOrderedField α]
    (dist : α → α) (min_val bw : α) :
    ∀ (js : List ℕ) (p : α), ∀ j ∈ js,
      dist (binCenter min_val bw j) ≤ fineScan dist min_val bw js p := by
  intro js
  induction js with
  | nil => intro p j hj; exact absurd hj (List.not_mem_nil j)
  | cons a t ih =>
    intro p j hj
    rcases List.mem_cons.1 hj with hja | hjt
    · subst hja
      simp only [fineScan]
      refine le_trans ?_ (fineScan_le dist min_val bw t _)
      split
      · exact le_refl _
      · next hnot => exact le_of_not_lt hnot
    · simp only [fineScan]
      exact ih _ j hjt

/-- The refinement-pass result is its starting value or one of the
probed values. -/
theorem fineScan_origin {α : Type} [LinearOrderedField α]
    (dist : α → α) (min_val bw : α) :
    ∀ (js : List ℕ) (p : α),
      fineScan dist min_val bw js p = p ∨
      ∃ j ∈ js, fineScan dist min_val bw js p = dist (binCenter min_val bw j) := by
  intro js
  induction js with
  | nil => intro p; exact Or.inl rfl
  | cons a t ih =>
    intro p
    simp only [fineScan]
    rcases ih (if p < dist (binCenter min_val bw a)
        then dist (binCenter min_val bw a) else p) with h | ⟨j, hj, hval⟩
    · rw [h]
      split
      · exact Or.inr ⟨a, List.mem_cons_self a t, rfl⟩
      · exact Or.inl rfl
    · exact Or.inr ⟨j, List.mem_cons_of_mem a hj, hval⟩

/-- C8 (amended): the bound `p_max` computed by the two probing passes of
`rejection_sample` equals the maximum of 0 (its initialization) and the
density values at the probed points.  The three conjuncts entail that
equality: `p_max` dominates every probed density value, it is
nonnegative (the scans start from 0 and never decrease), and it is 0 or
one of the probed values — so it is exactly `max(0, probed values)`,
and equals the maximum of the probed values themselves only when that
maximum is nonnegative. -/
theorem pMaxOf_dominates_probes {α : Type} [LinearOrderedField α]
    (dist : α → α) (min_val max_val : α) (n_bins : ℕ) :
    (∀ j ∈ probedIdx dist min_val max_val n_bins,
      dist (binCenter min_val ((max_val - min_val) / (n_bins : α)) j) ≤
        pMaxOf dist min_val max_val n_bins) ∧
    0 ≤ pMaxOf dist min_val max_val n_bins ∧
    (pMaxOf dist min_val max_val n_bins = 0 ∨
      ∃ j ∈ probedIdx dist min_val max_val n_bins,
        pMaxOf dist min_val max_val n_bins =
          dist (binCenter min_val ((max_val - min_val) / (n_bins : α)) j)) := by
  simp only [pMaxOf, probedIdx]
  refine ⟨?_, ?_, ?_⟩
  · intro j hj
    rcases List.mem_append.1 hj with hc | hf
    · exact le_trans (coarseScan_probe_le dist min_val _ _ _ j hc)
        (fineScan_le dist min_val _ _ _)
    · exact fineScan_probe_le dist min_val _ _ _ j hf
  · exact le_trans
      (coarseScan_le_fst dist min_val ((max_val - min_val) / (n_bins : α))
        (coarseIdx n_bins) (0, 0))
      (fineScan_le dist min_val _ _ _)
  · rcases fineScan_origin dist min_val ((max_val - min_val) / (n_bins : α))
        (fineIdx (coarseScan dist min_val ((max_val - min_val) / (n_bins : α))
          (coarseIdx n_bins) (0, 0)).2 n_bins)
        (coarseScan dist min_val ((max_val - min_val) / (n_bins : α))
          (coarseIdx n_bins) (0, 0)).1 with hf | ⟨j, hj, hval⟩
    · rw [hf]
      rcases coarseScan_fst_origin dist min_val
          ((max_val - min_val) / (n_bins : α)) (coarseIdx n_bins) (0, 0)
          with hc | ⟨j, hj, hval⟩
      · exact Or.inl hc
      · exact Or.inr ⟨j, List.mem_append_left _ hj, hval⟩
    · exact Or.inr ⟨j, List.mem_append_right _ hj, hval⟩

/-- Witness for `pMaxOf_dominates_probes`: index 0 is probed (it heads
the coarse pass) and its density value is dominated by `p_max`, at a
concrete constant-zero density over ℚ. -/
theorem pMaxOf_dominates_probes_witness :
    0 ∈ probedIdx (fun _ => (0 : ℚ)) 0 1 10 ∧
    (fun _ => (0 : ℚ)) (binCenter 0 ((1 - 0) / ((10 : ℕ) : ℚ)) 0) ≤
      pMaxOf (fun _ => (0 : ℚ)) 0 1 10 := by
  have hmem : 0 ∈ probedIdx (fun _ => (0 : ℚ)) 0 1 10 := by
    simp only [probedIdx]
    exact List.mem_append_left _ (by decide)
  exact ⟨hmem, (pMaxOf_dominates_probes (fun _ => (0 : ℚ)) 0 1 10).1 0 hmem⟩

/-- C8 counterexample: for the everywhere-negative density `-1` on
`[0, 1]` with 10 bins, every probed density value is `-1`, yet
`p_max = 0`: the computed bound is not the maximum of the density over
the probed points. -/
theorem pMaxOf_ne_probed_max :
    pMaxOf (fun _ => (-1 : ℚ)) 0 1 10 = 0 ∧
    (∀ j ∈ probedIdx (fun _ => (-1 : ℚ)) 0 1 10,
      (fun _ => (-1 : ℚ)) (binCenter 0 ((1 - 0) / ((10 : ℕ) : ℚ)) j) = -1) ∧
    (0 : ℚ) ≠ -1 := by
  have hc : coarseIdx 10 = [0] := by decide
  have hf : fineIdx 0 10 = [0, 1, 2, 3, 4, 5, 6, 7, 8, 9] := by decide
  refine ⟨?_, fun j _ => rfl, by norm_num⟩
  simp only [pMaxOf, hc, coarseScan, fineScan, binCenter]
  norm_num [hf, fineScan]

/-- With an everywhere-negative density the accept condition
`p_max * r < dist(val)` can never hold once `p_max = 0`, so the loop
never accepts: it runs forever (here: returns `none` for every fuel). -/
theorem sampleLoop_neg_density_none (stream : ℕ → ℚ) :
    ∀ (fuel pos : ℕ),
      sampleLoop (fun _ => (-1 : ℚ)) 0 1 0 stream pos fuel = none := by
  intro fuel
  induction fuel with
  | zero => intro pos; rfl
  | succ n ih =>
    intro pos
    simp only [sampleLoop, zero_mul]
    rw [if_neg (by norm_num)]
    exact ih (pos + 2)

/-- The probing passes clamp to the initialization 0 on the
everywhere-negative density. -/
theorem pMaxOf_neg_density : pMaxOf (fun _ => (-1 : ℚ)) 0 1 10 = 0 := by
  have hc : coarseIdx 10 = [0] := by decide
  have hf : fineIdx 0 10 = [0, 1, 2, 3, 4, 5, 6, 7, 8, 9] := by decide
  simp only [pMaxOf, hc, coarseScan, fineScan, binCenter]
  norm_num [hf, fineScan]

/-- C9 (amended): `rejection_sample` performs no domain validation and
has no error path.  With reversed bounds `min_val = 1 > 0 = max_val` it
silently returns a sample (here the concrete run accepting the first
draw), and with an everywhere-negative density it raises nothing and
never accepts — the loop simply never terminates, whatever the draws. -/
theorem rejection_sample_no_validation :
    rejection_sample (fun _ => (1 : ℚ)) 1 0 10 (fun _ => 1 / 2) 0 1 =
      some (1 / 2, 2) ∧
    (∀ (stream : ℕ → ℚ) (pos fuel : ℕ),
      rejection_sample (fun _ => (-1 : ℚ)) 0 1 10 stream pos fuel = none) := by
  constructor
  · have hc : coarseIdx 10 = [0] := by decide
    have hf : fineIdx 0 10 = [0, 1, 2, 3, 4, 5, 6, 7, 8, 9] := by decide
    have hpm : pMaxOf (fun _ => (1 : ℚ)) 1 0 10 = 1 := by
      simp only [pMaxOf, hc, coarseScan, fineScan, binCenter]
      norm_num [hf, fineScan]
    simp only [rejection_sample, hpm, sampleLoop]
    norm_num
  · intro stream pos fuel
    simp only [rejection_sample, pMaxOf_neg_density]
    exact sampleLoop_neg_density_none stream fuel pos

/-- C9 counterexample: the claim requires a fast failure on
`min > max`, but with `min_val = 1 > 0 = max_val` the sampler silently
produces a sample instead of raising an error. -/
theorem rejection_sample_silent_on_reversed_bounds :
    (0 : ℚ) < 1 ∧
    rejection_sample (fun _ => (1 : ℚ)) 1 0 10 (fun _ => 1 / 2) 0 1 =
      some (1 / 2, 2) := by
  have hc : coarseIdx 10 = [0] := by decide
  have hf : fineIdx 0 10 = [0, 1, 2, 3, 4, 5, 6, 7, 8, 9] := by decide
  have hpm : pMaxOf (fun _ => (1 : ℚ)) 1 0 10 = 1 := by
    simp only [pMaxOf, hc, coarseScan, fineScan, binCenter]
    norm_num [hf, fineScan]
  refine ⟨by norm_num, ?_⟩
  simp only [rejection_sample, hpm, sampleLoop]
  norm_num

/-- C10: the direction vector built in `get_direction` from a sampled
`cosT ∈ [-1, 1]` and any `phi` is a unit vector: its Euclidean norm
is exactly 1. -/
theorem directionVector_unit_norm (cosT phi : ℝ)
    (h1 : -1 ≤ cosT) (h2 : cosT ≤ 1) :
    Real.sqrt ((directionVector cosT phi).1 ^ 2 +
      (directionVector cosT phi).2.1 ^ 2 +
      (directionVector cosT phi).2.2 ^ 2) = 1 := by
  have hs : Real.sin (Real.arccos cosT) ^ 2 = 1 - cosT ^ 2 := by
    rw [Real.sin_arccos, Real.sq_sqrt (by nlinarith : (0 : ℝ) ≤ 1 - cosT ^ 2)]
  have htup : directionVector cosT phi =
      (Real.sin (Real.arccos cosT) * Real.cos phi,
        Real.sin (Real.arccos cosT) * Real.sin phi, cosT) := rfl
  rw [htup]
  have hkey : (Real.sin (Real.arccos cosT) * Real.cos phi) ^ 2 +
      (Real.sin (Real.arccos cosT) * Real.sin phi) ^ 2 + cosT ^ 2 = 1 := by
    have hpc := Real.sin_sq_add_cos_sq phi
    calc (Real.sin (Real.arccos cosT) * Real.cos phi) ^ 2 +
        (Real.sin (Real.arccos cosT) * Real.sin phi) ^ 2 + cosT ^ 2
        = Real.sin (Real.arccos cosT) ^ 2 *
            (Real.sin phi ^ 2 + Real.cos phi ^ 2) + cosT ^ 2 := by ring
      _ = 1 := by rw [hpc, hs]; ring
  simp only []
  rw [hkey, Real.sqrt_one]

/-- Witness for `directionVector_unit_norm` at `cosT = 0`, `phi = 0`. -/
theorem directionVector_unit_norm_witness :
    (-1 : ℝ) ≤ 0 ∧ (0 : ℝ) ≤ 1 ∧
    Real.sqrt ((directionVector 0 0).1 ^ 2 +
      (directionVector 0 0).2.1 ^ 2 +
      (directionVector 0 0).2.2 ^ 2) = 1 :=
  ⟨by norm_num, by norm_num,
    directionVector_unit_norm 0 0 (by norm_num) (by norm_num)⟩

end SnTools

namespace IBD

/-- C2: for every `eNu` in the reference channel's `bounds_eNu` interval
`[eThr, 100]`, the pair returned by `bounds_eE` is ordered:
its first component is at most its second. -/
theorem bounds_eE_ordered (eNu : ℝ)
    (h1 : bounds_eNu.1 ≤ eNu) (_h2 : eNu ≤ bounds_eNu.2) :
    (bounds_eE eNu).1 ≤ (bounds_eE eNu).2 := by
  have hThr : (0 : ℝ) ≤ eThr := by
    unfold eThr mN mE mP
    norm_num
  have hNu : 0 ≤ eNu := le_trans hThr (by simpa [bounds_eNu] using h1)
  have hsq : (0 : ℝ) ≤ Real.sqrt (s eNu) := Real.sqrt_nonneg _
  have hp : 0 ≤ pE_cm eNu := by
    unfold pE_cm
    exact div_nonneg (Real.sqrt_nonneg _) (by positivity)
  have hA : 0 ≤ eNu / Real.sqrt (s eNu) := div_nonneg hNu hsq
  have hkey : eE_min eNu ≤ eE_max eNu := by
    unfold eE_min eE_max
    have hmul := mul_le_mul_of_nonneg_left
      (by linarith : eE_cm eNu - pE_cm eNu ≤ eE_cm eNu + pE_cm eNu) hA
    linarith
  simp only [bounds_eE]
  linarith

/-- Witness for `bounds_eE_ordered` at `eNu = 5` MeV. -/
theorem bounds_eE_ordered_witness :
    bounds_eNu.1 ≤ (5 : ℝ) ∧ (5 : ℝ) ≤ bounds_eNu.2 ∧
    (bounds_eE 5).1 ≤ (bounds_eE 5).2 := by
  have ha : bounds_eNu.1 ≤ (5 : ℝ) := by
    simp only [bounds_eNu, eThr, mN, mE, mP]
    norm_num
  have hb : (5 : ℝ) ≤ bounds_eNu.2 := by
    simp only [bounds_eNu]
    norm_num
  exact ⟨ha, hb, bounds_eE_ordered 5 ha hb⟩

/-- The definite integral over `[-1, 1]` of any quadratic of the shape
used by the angular distribution is exactly 1: the linear term is odd
and the `x^2 - 1/3` term integrates to zero. -/
theorem integral_quadratic_unit (a b : ℝ) :
    (∫ x in (-1 : ℝ)..1, (0.5 + a * x + b * (x ^ 2 - 1 / 3))) = 1 := by
  have h0 : IntervalIntegrable (fun _ : ℝ => (0.5 : ℝ))
      MeasureTheory.volume (-1) 1 := intervalIntegrable_const
  have h1 : IntervalIntegrable (fun x : ℝ => a * x)
      MeasureTheory.volume (-1) 1 :=
    (continuous_const.mul continuous_id).intervalIntegrable _ _
  have h2 : IntervalIntegrable (fun x : ℝ => b * (x ^ 2 - 1 / 3))
      MeasureTheory.volume (-1) 1 :=
    (continuous_const.mul ((continuous_pow 2).sub continuous_const)).intervalIntegrable _ _
  rw [intervalIntegral.integral_add (h0.add h1) h2,
    intervalIntegral.integral_add h0 h1,
    intervalIntegral.integral_const,
    intervalIntegral.integral_const_mul, integral_id,
    intervalIntegral.integral_const_mul,
    intervalIntegral.integral_sub ((continuous_pow 2).intervalIntegrable _ _)
      intervalIntegrable_const,
    integral_pow, intervalIntegral.integral_const]
  norm_num [smul_eq_mul]

/-- C7: for every incoming energy, the angular distribution
`dir_nuebar_p_sv(eNu, ·)` integrates to exactly 1 over
`cosT ∈ [-1, 1]`. -/
theorem dir_nuebar_p_sv_normalized (eNu : ℝ) :
    (∫ cosT in (-1 : ℝ)..1, dir_nuebar_p_sv eNu cosT) = 1 := by
  unfold dir_nuebar_p_sv
  exact integral_quadratic_unit _ _

end IBD
